import Mathlib

/-!
Shallow embedding of the terrain mesh construction pipeline of `Source.cpp`
(functions `normalizePoints`, `triangulateSimplified`, `calculateNormals`).
Float arithmetic is modelled exactly: coordinates are rationals in the point
pipeline, and the square-root based normal computations live over the reals.
Diagnostic prints on `std::cout` / `std::cerr` are modelled as a list of `Msg`
values returned alongside the data.
-/

/-- Model of `struct Point { float x, y, z; }`, with `float` modelled as exact `ℚ`. -/
structure Pt where
  x : ℚ
  y : ℚ
  z : ℚ
  deriving DecidableEq, Repr

/-- Model of `struct Vertex { glm::vec3 position; glm::vec3 normal; }` for the
rational stage of the pipeline. -/
structure VertexQ where
  position : Pt
  normal : Pt
  deriving DecidableEq, Repr

/-- Diagnostic messages the pipeline prints on `std::cout` / `std::cerr`:
`pointsNormalized` is "Points normalized to range [-1, 1].",
`insufficientPoints` is "Not enough points to create a mesh.",
`removedTriangle` is "Removed triangle: i, j, k | Edges: ..." (edge lengths
carried squared, matching the squared-distance embedding below), and
`triangulationCompleted` is "Filtered triangulation completed. Remaining
triangles: n". -/
inductive Msg where
  | pointsNormalized
  | insufficientPoints
  | removedTriangle (i j k : ℕ) (d01sq d12sq d20sq : ℚ)
  | triangulationCompleted (remaining : ℕ)
  deriving DecidableEq, Repr

/-- Running minimum, mirroring the update `if (v < m) m = v;` folded over the
min/max scan loop of `normalizePoints`. -/
def foldMin (a : ℚ) (l : List ℚ) : ℚ :=
  l.foldl (fun m v => if v < m then v else m) a

/-- Running maximum, mirroring the update `if (v > m) m = v;` folded over the
min/max scan loop of `normalizePoints`. -/
def foldMax (a : ℚ) (l : List ℚ) : ℚ :=
  l.foldl (fun m v => if v > m then v else m) a

/-- Embedding of `normalizePoints`: an empty input returns immediately, touching
nothing and printing nothing; otherwise min/max per axis are scanned starting
from `points[0]`, the center is the per-axis midpoint, the shared scale is half
the largest axis extent (replaced by `1` when zero), every point is rescaled in
order, and "Points normalized to range [-1, 1]." is printed. -/
def normalizePoints : List Pt → List Pt × List Msg
  | [] => ([], [])
  | p0 :: rest =>
    let ps := p0 :: rest
    let minX := foldMin p0.x (ps.map Pt.x)
    let maxX := foldMax p0.x (ps.map Pt.x)
    let minY := foldMin p0.y (ps.map Pt.y)
    let maxY := foldMax p0.y (ps.map Pt.y)
    let minZ := foldMin p0.z (ps.map Pt.z)
    let maxZ := foldMax p0.z (ps.map Pt.z)
    let centerX := (minX + maxX) / 2
    let centerY := (minY + maxY) / 2
    let centerZ := (minZ + maxZ) / 2
    let scale0 := max (max (maxX - minX) (maxY - minY)) (maxZ - minZ) / 2
    let scale := if scale0 = 0 then 1 else scale0
    (ps.map (fun p =>
      ⟨(p.x - centerX) / scale, (p.y - centerY) / scale, (p.z - centerZ) / scale⟩),
     [Msg.pointsNormalized])

/-- Squared Euclidean distance between two points.  The source compares
`glm::distance(v0, v1) < 0.15f`; both sides being nonnegative, this is
equivalent to comparing the squared distance against `0.15²`, which keeps the
filter computable over `ℚ`.  The genuine square-root distance is `glmDistance`
below. -/
def dist2 (a b : Pt) : ℚ :=
  (a.x - b.x) ^ 2 + (a.y - b.y) ^ 2 + (a.z - b.z) ^ 2

/-- Threshold `float maxEdgeLength = 0.15f;` of `triangulateSimplified`. -/
def maxEdgeLength : ℚ := 3 / 20

/-- Filter condition `d01 < maxEdgeLength && d12 < maxEdgeLength && d20 < maxEdgeLength`
of `triangulateSimplified`, phrased on squared distances. -/
def keepTriangle (v0 v1 v2 : Pt) : Bool :=
  decide (dist2 v0 v1 < maxEdgeLength ^ 2) &&
  decide (dist2 v1 v2 < maxEdgeLength ^ 2) &&
  decide (dist2 v2 v0 < maxEdgeLength ^ 2)

/-- Read `vertices[j].position`.  Every access performed by the embedded code is
in range (claim C6); the default value is never reached there. -/
def posAt (vertices : List VertexQ) (j : ℕ) : Pt :=
  (vertices.getD j ⟨⟨0, 0, 0⟩, ⟨0, 0, 0⟩⟩).position

/-- Comparator handed to `std::sort`:
`(a.x < b.x) || (a.x == b.x && a.z < b.z)`. -/
def ptLess (a b : Pt) : Bool :=
  decide (a.x < b.x) || (decide (a.x = b.x) && decide (a.z < b.z))

/-- Sorted copy `sortedPoints` of the input.  `std::sort` is modelled by
`List.mergeSort`; the code's observable output never depends on the resulting
order, only on its length (claims C1 and C9), so the difference between the two
sorting algorithms on ties is immaterial. -/
def sortPoints (ps : List Pt) : List Pt :=
  ps.mergeSort ptLess

/-- Emission loop `for (size_t i = 0; i < sortedPoints.size() - 2; ++i)` pushing
`i, i+1, i+2`; the argument `k` counts the remaining iterations and `i` is the
loop counter. -/
def emitFrom (i k : ℕ) : List ℕ :=
  match k with
  | 0 => []
  | k0 + 1 => i :: (i + 1) :: (i + 2) :: emitFrom (i + 1) k0

/-- Candidate index emission of `triangulateSimplified`: one `(i, i+1, i+2)`
triple for each window position over the sorted copy. -/
def emitCandidates (sorted : List Pt) : List ℕ :=
  emitFrom 0 (sorted.length - 2)

/-- Decompose a flat index list into the consecutive triples visited by the
loops `for (size_t i = 0; i < indices.size(); i += 3)`.  A leftover of fewer
than three elements is dropped; every list those loops actually receive has
length a multiple of 3 (claim C6). -/
def chunk3 {α : Type} : List α → List (α × α × α)
  | a :: b :: c :: rest => (a, b, c) :: chunk3 rest
  | _ => []

/-- Flatten triples back into a flat index list. -/
def flat3 {α : Type} : List (α × α × α) → List α
  | [] => []
  | (a, b, c) :: ts => a :: b :: c :: flat3 ts

/-- Filter loop of `triangulateSimplified`: walk the candidate indices three at
a time, keep a triple when `keepTriangle` holds for its vertex positions,
otherwise record the removal message with the (squared) edge lengths. -/
def filterTriangles (vertices : List VertexQ) : List ℕ → List ℕ × List Msg
  | a :: b :: c :: rest =>
    let v0 := posAt vertices a
    let v1 := posAt vertices b
    let v2 := posAt vertices c
    let t := filterTriangles vertices rest
    if keepTriangle v0 v1 v2 then (a :: b :: c :: t.1, t.2)
    else (t.1, Msg.removedTriangle a b c (dist2 v0 v1) (dist2 v1 v2) (dist2 v2 v0) :: t.2)
  | _ => ([], [])

/-- Result of `triangulateSimplified` at its call site in `main`, where the two
output vectors are passed in empty: the produced vertex buffer, the produced
index buffer, and the printed messages. -/
structure TriOut where
  vertices : List VertexQ
  indices : List ℕ
  msgs : List Msg
  deriving DecidableEq, Repr

/-- Embedding of `triangulateSimplified`: fewer than 3 points prints "Not
enough points to create a mesh." and leaves both buffers empty; otherwise the
vertex buffer is built 1:1 from the input points with zero normals, candidate
triples are emitted over the sorted copy, and the edge-length filter selects the
final index buffer. -/
def triangulateSimplified (points : List Pt) : TriOut :=
  if points.length < 3 then
    ⟨[], [], [Msg.insufficientPoints]⟩
  else
    let vertices := points.map (fun p => ⟨p, ⟨0, 0, 0⟩⟩)
    let f := filterTriangles vertices (emitCandidates (sortPoints points))
    ⟨vertices, f.1, f.2 ++ [Msg.triangulationCompleted (f.1.length / 3)]⟩

/-- Variant of `triangulateSimplified` written for the refinement claim C9,
following the spec's words: the sorted copy is never built and the emission
loop runs directly over indices of the original sequence. -/
def triangulateNoSort (points : List Pt) : TriOut :=
  if points.length < 3 then
    ⟨[], [], [Msg.insufficientPoints]⟩
  else
    let vertices := points.map (fun p => ⟨p, ⟨0, 0, 0⟩⟩)
    let f := filterTriangles vertices (emitCandidates points)
    ⟨vertices, f.1, f.2 ++ [Msg.triangulationCompleted (f.1.length / 3)]⟩

/-- Genuine Euclidean distance `glm::distance` between two rational points,
over the reals. -/
noncomputable def glmDistance (a b : Pt) : ℝ :=
  Real.sqrt ((dist2 a b : ℚ) : ℝ)

/-- Real-valued 3-vector for the normal computation (`glm::vec3` with exact
real arithmetic). -/
structure Vec3R where
  x : ℝ
  y : ℝ
  z : ℝ

/-- Componentwise vector addition. -/
def vadd (a b : Vec3R) : Vec3R := ⟨a.x + b.x, a.y + b.y, a.z + b.z⟩

/-- Componentwise vector subtraction. -/
def vsub (a b : Vec3R) : Vec3R := ⟨a.x - b.x, a.y - b.y, a.z - b.z⟩

/-- Scalar multiplication. -/
def vsmul (c : ℝ) (a : Vec3R) : Vec3R := ⟨c * a.x, c * a.y, c * a.z⟩

/-- Dot product `glm::dot`. -/
def vdot (a b : Vec3R) : ℝ := a.x * b.x + a.y * b.y + a.z * b.z

/-- Cross product `glm::cross`. -/
def vcross (a b : Vec3R) : Vec3R :=
  ⟨a.y * b.z - a.z * b.y, a.z * b.x - a.x * b.z, a.x * b.y - a.y * b.x⟩

/-- Magnitude `glm::length`. -/
noncomputable def vlen (a : Vec3R) : ℝ := Real.sqrt (vdot a a)

/-- Embedding of `glm::normalize(v) = v * inversesqrt(dot(v, v))` under IEEE
float semantics: when `dot(v, v) = 0` the multiplication `0 * inf` produces NaN
components, modelled as `none`; otherwise the exact unit vector is returned. -/
noncomputable def glmNormalize (v : Vec3R) : Option Vec3R :=
  if vdot v v = 0 then none else some (vsmul (Real.sqrt (vdot v v))⁻¹ v)

/-- Vertex of the normal-estimation stage; a `none` normal marks a vector with
NaN components. -/
structure VertexR where
  position : Vec3R
  normal : Option Vec3R

/-- Accumulation `vertex.normal += normal;` — NaN (`none`) propagates through
IEEE addition. -/
def addOpt : Option Vec3R → Option Vec3R → Option Vec3R
  | some a, some b => some (vadd a b)
  | _, _ => none

/-- Final per-vertex step `vertex.normal = glm::normalize(vertex.normal);`. -/
noncomputable def normalizeOpt (o : Option Vec3R) : Option Vec3R :=
  o.bind glmNormalize

/-- Face normal `glm::normalize(glm::cross(v1 - v0, v2 - v0))` of a triangle. -/
noncomputable def faceNormal (v0 v1 v2 : Vec3R) : Option Vec3R :=
  glmNormalize (vcross (vsub v1 v0) (vsub v2 v0))

/-- Read `vertices[j].position` in the normal stage; every actual access is in
range (claim C6). -/
def rposAt (vertices : List VertexR) (j : ℕ) : Vec3R :=
  (vertices.getD j ⟨⟨0, 0, 0⟩, none⟩).position

/-- Read `vertices[j].normal` of a produced mesh. -/
def normalAt (vertices : List VertexR) (j : ℕ) : Option Vec3R :=
  (vertices.getD j ⟨⟨0, 0, 0⟩, none⟩).normal

/-- Single `vertices[j].normal += normal;` update on the accumulator table. -/
def bump (acc : ℕ → Option Vec3R) (j : ℕ) (n : Option Vec3R) : ℕ → Option Vec3R :=
  fun k => if k = j then addOpt (acc k) n else acc k

/-- Accumulation body of `calculateNormals` for one triangle of the index
list: the face normal is added into the three corner accumulators in turn. -/
noncomputable def addFace (vertices : List VertexR) (t : ℕ × ℕ × ℕ)
    (acc : ℕ → Option Vec3R) : ℕ → Option Vec3R :=
  let n := faceNormal (rposAt vertices t.1) (rposAt vertices t.2.1) (rposAt vertices t.2.2)
  bump (bump (bump acc t.1 n) t.2.1 n) t.2.2 n

/-- Accumulated normal per vertex index after the two first loops of
`calculateNormals`: every normal is reset to zero, then each triangle adds its
face normal into its three corners. -/
noncomputable def accumNormals (vertices : List VertexR) (ts : List (ℕ × ℕ × ℕ)) :
    ℕ → Option Vec3R :=
  ts.foldl (fun acc t => addFace vertices t acc) (fun _ => some ⟨0, 0, 0⟩)

/-- Write every vertex normal from the table `f` while keeping positions; `j` is
the index of the first vertex of the remaining list. -/
def setNormalsFrom (f : ℕ → Option Vec3R) : ℕ → List VertexR → List VertexR
  | _, [] => []
  | j, v :: rest => ⟨v.position, f j⟩ :: setNormalsFrom f (j + 1) rest

/-- Embedding of `calculateNormals`: reset every normal to zero, accumulate the
normalized cross product of each triangle into its three vertices, then
normalize every accumulator (`glm::normalize`, NaN on a zero accumulator). -/
noncomputable def calculateNormals (vertices : List VertexR) (indices : List ℕ) :
    List VertexR :=
  setNormalsFrom (fun j => normalizeOpt (accumNormals vertices (chunk3 indices) j)) 0 vertices

/-- Cast a rational vertex into the real-valued normal stage. -/
def castVertex (v : VertexQ) : VertexR :=
  ⟨⟨(v.position.x : ℝ), (v.position.y : ℝ), (v.position.z : ℝ)⟩,
   some ⟨(v.normal.x : ℝ), (v.normal.y : ℝ), (v.normal.z : ℝ)⟩⟩

/-- Composition run by `main`: `triangulateSimplified(points, vertices, indices)`
followed by `calculateNormals(vertices, indices)`. -/
noncomputable def pipelineNormals (ps : List Pt) : List VertexR :=
  calculateNormals ((triangulateSimplified ps).vertices.map castVertex)
    (triangulateSimplified ps).indices

/-- Concrete four-point sample reused by several witnesses: all candidate edges
are shorter than the 0.15 threshold, so both strip triangles survive. -/
def samplePts : List Pt :=
  [⟨0, 0, 0⟩, ⟨1/10, 0, 0⟩, ⟨1/20, 1/20, 0⟩, ⟨3/20, 1/20, 0⟩]

theorem sortPoints_length (ps : List Pt) : (sortPoints ps).length = ps.length := by
  unfold sortPoints
  exact List.length_mergeSort ps

theorem emitFrom_length : ∀ (k i : ℕ), (emitFrom i k).length = 3 * k
  | 0, _ => rfl
  | k + 1, i => by
    simp only [emitFrom, List.length_cons, emitFrom_length k (i + 1)]
    omega

theorem emitFrom_mem : ∀ (k i j : ℕ), j ∈ emitFrom i k → j < i + k + 2
  | 0, _, _, h => by simp [emitFrom] at h
  | k + 1, i, j, h => by
    simp only [emitFrom, List.mem_cons] at h
    rcases h with h | h | h | h
    · omega
    · omega
    · omega
    · have := emitFrom_mem k (i + 1) j h
      omega

theorem chunk3_emitFrom : ∀ (k i : ℕ), chunk3 (emitFrom i k) =
    (List.range k).map (fun t => (i + t, i + t + 1, i + t + 2))
  | 0, _ => rfl
  | k + 1, i => by
    have ih := chunk3_emitFrom k (i + 1)
    simp only [emitFrom, chunk3, ih, List.range_succ_eq_map, List.map_cons, List.map_map]
    refine List.cons_eq_cons.mpr ⟨by simp, ?_⟩
    refine List.map_congr_left fun t ht => ?_
    simp only [Function.comp_apply, Prod.mk.injEq]
    omega

/-- Claim C1: for every input of length `N ≥ 3` the candidate-generation pass
emits exactly `N - 2` index triples `(i, i+1, i+2)` for `i` from `0` to `N - 3`,
in that order; all emitted indices are valid positions of the original vertex
array, and the spatial sort of the point copy does not change which index
triples are emitted. -/
theorem candidate_generation_strip (ps : List Pt) (h : 3 ≤ ps.length) :
    chunk3 (emitCandidates (sortPoints ps)) =
      (List.range (ps.length - 2)).map (fun i => (i, i + 1, i + 2)) ∧
    (chunk3 (emitCandidates (sortPoints ps))).length = ps.length - 2 ∧
    (∀ j ∈ emitCandidates (sortPoints ps), j < ps.length) ∧
    emitCandidates (sortPoints ps) = emitCandidates ps := by
  unfold emitCandidates
  rw [sortPoints_length]
  refine ⟨?_, ?_, ?_, rfl⟩
  · simpa using chunk3_emitFrom (ps.length - 2) 0
  · rw [chunk3_emitFrom]
    simp
  · intro j hj
    have := emitFrom_mem (ps.length - 2) 0 j hj
    omega

/-- Witness for C1 at the concrete four-point sample. -/
theorem candidate_generation_strip_witness :
    3 ≤ samplePts.length ∧
    (chunk3 (emitCandidates (sortPoints samplePts)) =
      (List.range (samplePts.length - 2)).map (fun i => (i, i + 1, i + 2)) ∧
    (chunk3 (emitCandidates (sortPoints samplePts))).length = samplePts.length - 2 ∧
    (∀ j ∈ emitCandidates (sortPoints samplePts), j < samplePts.length) ∧
    emitCandidates (sortPoints samplePts) = emitCandidates samplePts) :=
  ⟨by decide, candidate_generation_strip samplePts (by decide)⟩

/-- Claim C7, counterexample part: on the empty input the Normalizer emits no
signal at all (and mutates nothing) — its message list is empty, refuting
"signals a DegenerateInput condition to the caller rather than ... returning
without any signal". -/
theorem normalizer_empty_no_signal : (normalizePoints ([] : List Pt)).2 = [] := rfl

/-- Claim C7, amended: given an empty Sample sequence the Normalizer performs no
point mutation and returns without emitting any signal; detection of the empty
case is left to the caller. -/
theorem normalizer_empty_noop : normalizePoints ([] : List Pt) = ([], []) := rfl

/-- Claim C8: given fewer than 3 points the Triangulator yields zero triangles,
returns an empty mesh as a result value and signals `InsufficientPoints` (the
"Not enough points to create a mesh." diagnostic), without raising an error. -/
theorem triangulator_insufficient_points (ps : List Pt) (h : ps.length < 3) :
    triangulateSimplified ps = ⟨[], [], [Msg.insufficientPoints]⟩ := by
  simp [triangulateSimplified, h]

/-- Witness for C8 at a concrete two-point input. -/
theorem triangulator_insufficient_points_witness :
    ([⟨0, 0, 0⟩, ⟨1, 0, 0⟩] : List Pt).length < 3 ∧
    triangulateSimplified [⟨0, 0, 0⟩, ⟨1, 0, 0⟩] = ⟨[], [], [Msg.insufficientPoints]⟩ :=
  ⟨by decide, triangulator_insufficient_points _ (by decide)⟩

/-- Claim C9: the Triangulator with the spatial sort step removed produces
exactly the same output (vertex buffer, filtered index buffer and messages) as
the Triangulator as written — the sort computation has no effect on the
output. -/
theorem triangulate_sort_irrelevant (ps : List Pt) :
    triangulateNoSort ps = triangulateSimplified ps := by
  simp only [triangulateNoSort, triangulateSimplified, emitCandidates, sortPoints_length]

/-- Filter condition of one candidate triple of the index list. -/
def keepIdx (vertices : List VertexQ) (t : ℕ × ℕ × ℕ) : Bool :=
  keepTriangle (posAt vertices t.1) (posAt vertices t.2.1) (posAt vertices t.2.2)

theorem filterTriangles_fst (vs : List VertexQ) :
    ∀ cand : List ℕ, (filterTriangles vs cand).1 = flat3 ((chunk3 cand).filter (keepIdx vs))
  | [] => rfl
  | [_] => rfl
  | [_, _] => rfl
  | a :: b :: c :: rest => by
    have ih := filterTriangles_fst vs rest
    simp only [filterTriangles, chunk3, List.filter_cons, keepIdx]
    by_cases h : keepTriangle (posAt vs a) (posAt vs b) (posAt vs c)
    · simp [h, flat3, ih]
    · simp [h, ih]

theorem chunk3_flat3 {α : Type} : ∀ ts : List (α × α × α), chunk3 (flat3 ts) = ts
  | [] => rfl
  | (a, b, c) :: ts => by
    simp only [flat3, chunk3, chunk3_flat3 ts]

theorem flat3_length {α : Type} : ∀ ts : List (α × α × α), (flat3 ts).length = 3 * ts.length
  | [] => rfl
  | (a, b, c) :: ts => by
    simp only [flat3, List.length_cons, flat3_length ts]
    omega

theorem mem_flat3 {α : Type} :
    ∀ (ts : List (α × α × α)) (j : α), j ∈ flat3 ts →
      ∃ t ∈ ts, j = t.1 ∨ j = t.2.1 ∨ j = t.2.2
  | (a, b, c) :: ts, j, h => by
    simp only [flat3, List.mem_cons] at h
    rcases h with h | h | h | h
    · exact ⟨(a, b, c), List.mem_cons_self _ _, Or.inl h⟩
    · exact ⟨(a, b, c), List.mem_cons_self _ _, Or.inr (Or.inl h)⟩
    · exact ⟨(a, b, c), List.mem_cons_self _ _, Or.inr (Or.inr h)⟩
    · obtain ⟨t, ht, hj⟩ := mem_flat3 ts j h
      exact ⟨t, List.mem_cons_of_mem _ ht, hj⟩

theorem mem_chunk3 {α : Type} :
    ∀ (l : List α) (t : α × α × α), t ∈ chunk3 l → t.1 ∈ l ∧ t.2.1 ∈ l ∧ t.2.2 ∈ l
  | a :: b :: c :: rest, t, h => by
    simp only [chunk3, List.mem_cons] at h
    rcases h with h | h
    · subst h
      simp
    · have := mem_chunk3 rest t h
      simp only [List.mem_cons]
      exact ⟨Or.inr (Or.inr (Or.inr this.1)),
        Or.inr (Or.inr (Or.inr this.2.1)), Or.inr (Or.inr (Or.inr this.2.2))⟩

theorem filter_all_kept (vs : List VertexQ) :
    ∀ ts : List (ℕ × ℕ × ℕ), (∀ t ∈ ts, keepIdx vs t = true) →
      filterTriangles vs (flat3 ts) = (flat3 ts, [])
  | [], _ => rfl
  | (a, b, c) :: ts, h => by
    have hk := h (a, b, c) (List.mem_cons_self _ _)
    have ih := filter_all_kept vs ts (fun t ht => h t (List.mem_cons_of_mem _ ht))
    simp only [flat3, filterTriangles, ih]
    simp only [keepIdx] at hk
    simp [hk]

theorem keepTriangle_iff_glmDistance (v0 v1 v2 : Pt) :
    keepTriangle v0 v1 v2 = true ↔
      (glmDistance v0 v1 < 0.15 ∧ glmDistance v1 v2 < 0.15 ∧ glmDistance v2 v0 < 0.15) := by
  have hpos : (0 : ℝ) < 0.15 := by norm_num
  have conv : ∀ a b : Pt, (dist2 a b < maxEdgeLength ^ 2) ↔ glmDistance a b < 0.15 := by
    intro a b
    rw [glmDistance, Real.sqrt_lt' hpos]
    rw [show ((0.15 : ℝ) ^ 2) = (((maxEdgeLength ^ 2 : ℚ) : ℝ)) by
      simp [maxEdgeLength]
      norm_num]
    exact_mod_cast Iff.rfl
  simp only [keepTriangle, Bool.and_eq_true, decide_eq_true_eq, conv]
  tauto

/-- Claim C2: the filter keeps a candidate triangle if and only if all three of
its Euclidean edge lengths are strictly below 0.15 (first two conjuncts: the
keep condition is exactly that bound, and the output consists exactly of the
kept triples); consequently every surviving triangle has all edges strictly
below 0.15, and running the filter again on its own output removes nothing. -/
theorem filter_keeps_iff_short_edges (vs : List VertexQ) (cand : List ℕ) :
    (∀ v0 v1 v2 : Pt, keepTriangle v0 v1 v2 = true ↔
      (glmDistance v0 v1 < 0.15 ∧ glmDistance v1 v2 < 0.15 ∧ glmDistance v2 v0 < 0.15)) ∧
    (filterTriangles vs cand).1 = flat3 ((chunk3 cand).filter (keepIdx vs)) ∧
    (∀ t ∈ chunk3 (filterTriangles vs cand).1,
      glmDistance (posAt vs t.1) (posAt vs t.2.1) < 0.15 ∧
      glmDistance (posAt vs t.2.1) (posAt vs t.2.2) < 0.15 ∧
      glmDistance (posAt vs t.2.2) (posAt vs t.1) < 0.15) ∧
    (filterTriangles vs (filterTriangles vs cand).1).1 = (filterTriangles vs cand).1 := by
  refine ⟨keepTriangle_iff_glmDistance, filterTriangles_fst vs cand, ?_, ?_⟩
  · intro t ht
    rw [filterTriangles_fst vs cand, chunk3_flat3] at ht
    have hk : keepIdx vs t = true := (List.mem_filter.mp ht).2
    simpa [keepIdx] using (keepTriangle_iff_glmDistance _ _ _).mp hk
  · rw [filterTriangles_fst vs cand]
    rw [filter_all_kept vs ((chunk3 cand).filter (keepIdx vs))
      (fun t ht => (List.mem_filter.mp ht).2)]

theorem triangulate_indices_lt (ps : List Pt) :
    ∀ j ∈ (triangulateSimplified ps).indices, j < (triangulateSimplified ps).vertices.length := by
  by_cases h : ps.length < 3
  · simp [triangulateSimplified, h]
  · have hlen : (ps.map (fun p => (⟨p, ⟨0, 0, 0⟩⟩ : VertexQ))).length = ps.length :=
      List.length_map ps _
    simp only [triangulateSimplified, if_neg h]
    intro j hj
    rw [filterTriangles_fst] at hj
    obtain ⟨t, ht, hcomp⟩ := mem_flat3 _ j hj
    have ht2 : t ∈ chunk3 (emitCandidates (sortPoints ps)) := (List.mem_filter.mp ht).1
    have hmem := mem_chunk3 _ t ht2
    have hj2 : j ∈ emitCandidates (sortPoints ps) := by
      rcases hcomp with rfl | rfl | rfl
      · exact hmem.1
      · exact hmem.2.1
      · exact hmem.2.2
    rw [hlen]
    unfold emitCandidates at hj2
    rw [sortPoints_length] at hj2
    have := emitFrom_mem (ps.length - 2) 0 j hj2
    omega

theorem triangulate_indices_mod3 (ps : List Pt) :
    (triangulateSimplified ps).indices.length % 3 = 0 := by
  by_cases h : ps.length < 3
  · simp [triangulateSimplified, h]
  · simp only [triangulateSimplified, if_neg h]
    rw [filterTriangles_fst, flat3_length]
    omega

/-- Claim C6: for every input point sequence the Triangulator's output satisfies
the Mesh invariant — every emitted index is a valid position of the produced
vertex buffer, and the index buffer's length is a multiple of 3. -/
theorem triangulator_mesh_invariant (ps : List Pt) :
    (∀ j ∈ (triangulateSimplified ps).indices, j < (triangulateSimplified ps).vertices.length) ∧
    (triangulateSimplified ps).indices.length % 3 = 0 :=
  ⟨triangulate_indices_lt ps, triangulate_indices_mod3 ps⟩

theorem foldMin_le_init : ∀ (l : List ℚ) (a : ℚ), foldMin a l ≤ a
  | [], _ => le_rfl
  | v :: l, a => by
    have ih := foldMin_le_init l (if v < a then v else a)
    simp only [foldMin, List.foldl_cons] at ih ⊢
    refine le_trans ih ?_
    split_ifs with hv
    · exact le_of_lt hv
    · exact le_rfl

theorem foldMin_le_mem : ∀ (l : List ℚ) (a v : ℚ), v ∈ l → foldMin a l ≤ v
  | w :: l, a, v, h => by
    rcases List.mem_cons.mp h with rfl | h
    · have := foldMin_le_init l (if v < a then v else a)
      simp only [foldMin, List.foldl_cons] at this ⊢
      refine le_trans this ?_
      split_ifs with hv
      · exact le_rfl
      · exact le_of_not_lt hv
    · have ih := foldMin_le_mem l (if w < a then w else a) v h
      simp only [foldMin, List.foldl_cons] at ih ⊢
      exact ih

theorem foldMin_attained : ∀ (l : List ℚ) (a : ℚ), foldMin a l = a ∨ foldMin a l ∈ l
  | [], _ => Or.inl rfl
  | v :: l, a => by
    have ih := foldMin_attained l (if v < a then v else a)
    simp only [foldMin, List.foldl_cons] at ih ⊢
    rcases ih with h | h
    · rw [h]
      split_ifs with hv
      · exact Or.inr (List.mem_cons_self _ _)
      · exact Or.inl rfl
    · exact Or.inr (List.mem_cons_of_mem _ h)

theorem foldMax_init_le : ∀ (l : List ℚ) (a : ℚ), a ≤ foldMax a l
  | [], _ => le_rfl
  | v :: l, a => by
    have ih := foldMax_init_le l (if v > a then v else a)
    simp only [foldMax, List.foldl_cons] at ih ⊢
    refine le_trans ?_ ih
    split_ifs with hv
    · exact le_of_lt hv
    · exact le_rfl

theorem foldMax_mem_le : ∀ (l : List ℚ) (a v : ℚ), v ∈ l → v ≤ foldMax a l
  | w :: l, a, v, h => by
    rcases List.mem_cons.mp h with rfl | h
    · have := foldMax_init_le l (if v > a then v else a)
      simp only [foldMax, List.foldl_cons] at this ⊢
      refine le_trans ?_ this
      split_ifs with hv
      · exact le_rfl
      · exact le_of_not_lt hv
    · have ih := foldMax_mem_le l (if w > a then w else a) v h
      simp only [foldMax, List.foldl_cons] at ih ⊢
      exact ih

theorem foldMax_attained : ∀ (l : List ℚ) (a : ℚ), foldMax a l = a ∨ foldMax a l ∈ l
  | [], _ => Or.inl rfl
  | v :: l, a => by
    have ih := foldMax_attained l (if v > a then v else a)
    simp only [foldMax, List.foldl_cons] at ih ⊢
    rcases ih with h | h
    · rw [h]
      split_ifs with hv
      · exact Or.inr (List.mem_cons_self _ _)
      · exact Or.inl rfl
    · exact Or.inr (List.mem_cons_of_mem _ h)

theorem normalized_coord_bounds (mn mx s v : ℚ) (hs : 0 < s) (h1 : mn ≤ v) (h2 : v ≤ mx)
    (h3 : (mx - mn) / 2 ≤ s) :
    -1 ≤ (v - (mn + mx) / 2) / s ∧ (v - (mn + mx) / 2) / s ≤ 1 := by
  constructor
  · rw [le_div_iff₀ hs]
    linarith
  · rw [div_le_one hs]
    linarith

/-- Claim C3: for every non-empty input, after normalization every output
coordinate lies in `[-1, 1]`; the output has the input's length and order (it
is a pointwise map of the input); if all samples are coincident every output
point is the zero vector; and otherwise at least one output coordinate equals
`1` or `-1` exactly. -/
theorem normalization_bounds (p0 : Pt) (rest : List Pt) :
    ((normalizePoints (p0 :: rest)).1.length = (p0 :: rest).length) ∧
    (∃ g : Pt → Pt, (normalizePoints (p0 :: rest)).1 = (p0 :: rest).map g) ∧
    (∀ q ∈ (normalizePoints (p0 :: rest)).1,
      (-1 ≤ q.x ∧ q.x ≤ 1) ∧ (-1 ≤ q.y ∧ q.y ≤ 1) ∧ (-1 ≤ q.z ∧ q.z ≤ 1)) ∧
    ((∀ p ∈ p0 :: rest, ∀ q ∈ p0 :: rest, p = q) →
      ∀ q ∈ (normalizePoints (p0 :: rest)).1, q = ⟨0, 0, 0⟩) ∧
    ((∃ p ∈ p0 :: rest, ∃ q ∈ p0 :: rest, p ≠ q) →
      ∃ q ∈ (normalizePoints (p0 :: rest)).1,
        q.x = 1 ∨ q.x = -1 ∨ q.y = 1 ∨ q.y = -1 ∨ q.z = 1 ∨ q.z = -1) := by
  classical
  set ps := p0 :: rest with hps
  set mnX := foldMin p0.x (ps.map Pt.x) with hmnX
  set mxX := foldMax p0.x (ps.map Pt.x) with hmxX
  set mnY := foldMin p0.y (ps.map Pt.y) with hmnY
  set mxY := foldMax p0.y (ps.map Pt.y) with hmxY
  set mnZ := foldMin p0.z (ps.map Pt.z) with hmnZ
  set mxZ := foldMax p0.z (ps.map Pt.z) with hmxZ
  set m3 := max (max (mxX - mnX) (mxY - mnY)) (mxZ - mnZ) with hm3
  set s0 := m3 / 2 with hs0
  set s := if s0 = 0 then 1 else s0 with hs
  set f := fun p : Pt =>
    (⟨(p.x - (mnX + mxX) / 2) / s, (p.y - (mnY + mxY) / 2) / s,
      (p.z - (mnZ + mxZ) / 2) / s⟩ : Pt) with hf
  have hout : (normalizePoints ps).1 = ps.map f := rfl
  have hpsmem : ∀ p ∈ ps, mnX ≤ p.x ∧ p.x ≤ mxX ∧ mnY ≤ p.y ∧ p.y ≤ mxY ∧
      mnZ ≤ p.z ∧ p.z ≤ mxZ := by
    intro p hp
    refine ⟨?_, ?_, ?_, ?_, ?_, ?_⟩
    · rw [hmnX]; exact foldMin_le_mem _ _ _ (List.mem_map_of_mem Pt.x hp)
    · rw [hmxX]; exact foldMax_mem_le _ _ _ (List.mem_map_of_mem Pt.x hp)
    · rw [hmnY]; exact foldMin_le_mem _ _ _ (List.mem_map_of_mem Pt.y hp)
    · rw [hmxY]; exact foldMax_mem_le _ _ _ (List.mem_map_of_mem Pt.y hp)
    · rw [hmnZ]; exact foldMin_le_mem _ _ _ (List.mem_map_of_mem Pt.z hp)
    · rw [hmxZ]; exact foldMax_mem_le _ _ _ (List.mem_map_of_mem Pt.z hp)
  have hp0 := hpsmem p0 (List.mem_cons_self _ _)
  have hXe : 0 ≤ mxX - mnX := by linarith [hp0.1, hp0.2.1]
  have hYe : 0 ≤ mxY - mnY := by linarith [hp0.2.2.1, hp0.2.2.2.1]
  have hZe : 0 ≤ mxZ - mnZ := by linarith [hp0.2.2.2.2.1, hp0.2.2.2.2.2]
  have hmax1 : mxX - mnX ≤ m3 := by
    rw [hm3]; exact le_trans (le_max_left _ _) (le_max_left _ _)
  have hmax2 : mxY - mnY ≤ m3 := by
    rw [hm3]; exact le_trans (le_max_right _ _) (le_max_left _ _)
  have hmax3 : mxZ - mnZ ≤ m3 := by
    rw [hm3]; exact le_max_right _ _
  have hm3nonneg : 0 ≤ m3 := le_trans hXe hmax1
  have hspos : 0 < s := by
    rw [hs]
    split_ifs with h0
    · norm_num
    · rw [hs0]
      rcases lt_or_eq_of_le hm3nonneg with h | h
      · linarith
      · exact absurd (by rw [hs0, ← h]; norm_num) h0
  have hdxs : (mxX - mnX) / 2 ≤ s ∧ (mxY - mnY) / 2 ≤ s ∧ (mxZ - mnZ) / 2 ≤ s := by
    rw [hs]
    split_ifs with h0
    · have hm30 : m3 = 0 := by
        rw [hs0] at h0
        linarith
      refine ⟨by linarith, by linarith, by linarith⟩
    · rw [hs0]
      exact ⟨by linarith, by linarith, by linarith⟩
  refine ⟨?_, ⟨f, hout⟩, ?_, ?_, ?_⟩
  · rw [hout]
    exact List.length_map ps f
  · intro q hq
    rw [hout] at hq
    obtain ⟨p, hp, rfl⟩ := List.mem_map.mp hq
    obtain ⟨h1, h2, h3, h4, h5, h6⟩ := hpsmem p hp
    refine ⟨?_, ?_, ?_⟩
    · simpa [hf] using normalized_coord_bounds mnX mxX s p.x hspos h1 h2 hdxs.1
    · simpa [hf] using normalized_coord_bounds mnY mxY s p.y hspos h3 h4 hdxs.2.1
    · simpa [hf] using normalized_coord_bounds mnZ mxZ s p.z hspos h5 h6 hdxs.2.2
  · intro hco q hq
    rw [hout] at hq
    obtain ⟨p, hp, rfl⟩ := List.mem_map.mp hq
    have hpp0 : p = p0 := hco p hp p0 (List.mem_cons_self _ _)
    have hmnX0 : mnX = p0.x := by
      rcases foldMin_attained (ps.map Pt.x) p0.x with h | h
      · rw [hmnX]; exact h
      · obtain ⟨r, hr, hrx⟩ := List.mem_map.mp h
        rw [hmnX, ← hrx, hco r hr p0 (List.mem_cons_self _ _)]
    have hmxX0 : mxX = p0.x := by
      rcases foldMax_attained (ps.map Pt.x) p0.x with h | h
      · rw [hmxX]; exact h
      · obtain ⟨r, hr, hrx⟩ := List.mem_map.mp h
        rw [hmxX, ← hrx, hco r hr p0 (List.mem_cons_self _ _)]
    have hmnY0 : mnY = p0.y := by
      rcases foldMin_attained (ps.map Pt.y) p0.y with h | h
      · rw [hmnY]; exact h
      · obtain ⟨r, hr, hrx⟩ := List.mem_map.mp h
        rw [hmnY, ← hrx, hco r hr p0 (List.mem_cons_self _ _)]
    have hmxY0 : mxY = p0.y := by
      rcases foldMax_attained (ps.map Pt.y) p0.y with h | h
      · rw [hmxY]; exact h
      · obtain ⟨r, hr, hrx⟩ := List.mem_map.mp h
        rw [hmxY, ← hrx, hco r hr p0 (List.mem_cons_self _ _)]
    have hmnZ0 : mnZ = p0.z := by
      rcases foldMin_attained (ps.map Pt.z) p0.z with h | h
      · rw [hmnZ]; exact h
      · obtain ⟨r, hr, hrx⟩ := List.mem_map.mp h
        rw [hmnZ, ← hrx, hco r hr p0 (List.mem_cons_self _ _)]
    have hmxZ0 : mxZ = p0.z := by
      rcases foldMax_attained (ps.map Pt.z) p0.z with h | h
      · rw [hmxZ]; exact h
      · obtain ⟨r, hr, hrx⟩ := List.mem_map.mp h
        rw [hmxZ, ← hrx, hco r hr p0 (List.mem_cons_self _ _)]
    have hs1 : s = 1 := by
      rw [hs, if_pos]
      rw [hs0, hm3, hmnX0, hmxX0, hmnY0, hmxY0, hmnZ0, hmxZ0]
      norm_num
    simp only [hf, Pt.mk.injEq]
    rw [hpp0, hs1, hmnX0, hmxX0, hmnY0, hmxY0, hmnZ0, hmxZ0]
    refine ⟨by ring, by ring, by ring⟩
  · rintro ⟨p, hp, q, hq, hpq⟩
    have hcomp : p.x ≠ q.x ∨ p.y ≠ q.y ∨ p.z ≠ q.z := by
      by_contra hc
      push_neg at hc
      apply hpq
      obtain ⟨px, py, pz⟩ := p
      obtain ⟨qx, qy, qz⟩ := q
      simp only [Pt.mk.injEq]
      simp only at hc
      exact ⟨hc.1, hc.2.1, hc.2.2⟩
    have hbp := hpsmem p hp
    have hbq := hpsmem q hq
    have hm3pos : 0 < m3 := by
      rcases hcomp with hne | hne | hne
      · rcases lt_or_gt_of_ne hne with hlt | hlt
        · have : 0 < mxX - mnX := by linarith [hbp.1, hbq.2.1]
          linarith
        · have : 0 < mxX - mnX := by linarith [hbq.1, hbp.2.1]
          linarith
      · rcases lt_or_gt_of_ne hne with hlt | hlt
        · have : 0 < mxY - mnY := by linarith [hbp.2.2.1, hbq.2.2.2.1]
          linarith
        · have : 0 < mxY - mnY := by linarith [hbq.2.2.1, hbp.2.2.2.1]
          linarith
      · rcases lt_or_gt_of_ne hne with hlt | hlt
        · have : 0 < mxZ - mnZ := by linarith [hbp.2.2.2.2.1, hbq.2.2.2.2.2]
          linarith
        · have : 0 < mxZ - mnZ := by linarith [hbq.2.2.2.2.1, hbp.2.2.2.2.2]
          linarith
    have hs0pos : 0 < s0 := by
      rw [hs0]
      linarith
    have hsne : s = s0 := by
      rw [hs]
      exact if_neg (ne_of_gt hs0pos)
    have hexX : ∃ r ∈ ps, r.x = mxX := by
      rcases foldMax_attained (ps.map Pt.x) p0.x with h | h
      · exact ⟨p0, List.mem_cons_self _ _, by rw [hmxX, h]⟩
      · obtain ⟨r, hr, hrx⟩ := List.mem_map.mp h
        exact ⟨r, hr, by rw [hmxX]; exact hrx⟩
    have hexY : ∃ r ∈ ps, r.y = mxY := by
      rcases foldMax_attained (ps.map Pt.y) p0.y with h | h
      · exact ⟨p0, List.mem_cons_self _ _, by rw [hmxY, h]⟩
      · obtain ⟨r, hr, hrx⟩ := List.mem_map.mp h
        exact ⟨r, hr, by rw [hmxY]; exact hrx⟩
    have hexZ : ∃ r ∈ ps, r.z = mxZ := by
      rcases foldMax_attained (ps.map Pt.z) p0.z with h | h
      · exact ⟨p0, List.mem_cons_self _ _, by rw [hmxZ, h]⟩
      · obtain ⟨r, hr, hrx⟩ := List.mem_map.mp h
        exact ⟨r, hr, by rw [hmxZ]; exact hrx⟩
    have hsn0 : s ≠ 0 := ne_of_gt hspos
    have hmc : m3 = max (mxX - mnX) (mxY - mnY) ∨ m3 = mxZ - mnZ := by
      rw [hm3]
      exact max_choice _ _
    rw [hout]
    rcases hmc with hmc | hmc
    · have hmc2 : m3 = mxX - mnX ∨ m3 = mxY - mnY := by
        rw [hmc]
        exact max_choice _ _
      rcases hmc2 with hmc2 | hmc2
      · obtain ⟨r, hr, hrx⟩ := hexX
        refine ⟨f r, List.mem_map_of_mem f hr, Or.inl ?_⟩
        have hfr : (f r).x = (r.x - (mnX + mxX) / 2) / s := by simp [hf]
        rw [hfr, hrx, hsne, hs0, div_eq_one_iff_eq (ne_of_gt (by linarith : (0:ℚ) < m3 / 2))]
        rw [hmc2]
        ring
      · obtain ⟨r, hr, hrx⟩ := hexY
        refine ⟨f r, List.mem_map_of_mem f hr, Or.inr (Or.inr (Or.inl ?_))⟩
        have hfr : (f r).y = (r.y - (mnY + mxY) / 2) / s := by simp [hf]
        rw [hfr, hrx, hsne, hs0, div_eq_one_iff_eq (ne_of_gt (by linarith : (0:ℚ) < m3 / 2))]
        rw [hmc2]
        ring
    · obtain ⟨r, hr, hrx⟩ := hexZ
      refine ⟨f r, List.mem_map_of_mem f hr, Or.inr (Or.inr (Or.inr (Or.inr (Or.inl ?_))))⟩
      have hfr : (f r).z = (r.z - (mnZ + mxZ) / 2) / s := by simp [hf]
      rw [hfr, hrx, hsne, hs0, div_eq_one_iff_eq (ne_of_gt (by linarith : (0:ℚ) < m3 / 2))]
      rw [hmc]
      ring

/-- Witness for C3 at the concrete two-point input `(0,0,0), (2,0,0)`. -/
theorem normalization_bounds_witness :
    ((normalizePoints (⟨0, 0, 0⟩ :: [⟨2, 0, 0⟩])).1.length =
      ((⟨0, 0, 0⟩ : Pt) :: [⟨2, 0, 0⟩]).length) ∧
    (∃ g : Pt → Pt, (normalizePoints (⟨0, 0, 0⟩ :: [⟨2, 0, 0⟩])).1 =
      ((⟨0, 0, 0⟩ : Pt) :: [⟨2, 0, 0⟩]).map g) ∧
    (∀ q ∈ (normalizePoints (⟨0, 0, 0⟩ :: [⟨2, 0, 0⟩])).1,
      (-1 ≤ q.x ∧ q.x ≤ 1) ∧ (-1 ≤ q.y ∧ q.y ≤ 1) ∧ (-1 ≤ q.z ∧ q.z ≤ 1)) ∧
    ((∀ p ∈ (⟨0, 0, 0⟩ : Pt) :: [⟨2, 0, 0⟩], ∀ q ∈ (⟨0, 0, 0⟩ : Pt) :: [⟨2, 0, 0⟩], p = q) →
      ∀ q ∈ (normalizePoints (⟨0, 0, 0⟩ :: [⟨2, 0, 0⟩])).1, q = ⟨0, 0, 0⟩) ∧
    ((∃ p ∈ (⟨0, 0, 0⟩ : Pt) :: [⟨2, 0, 0⟩], ∃ q ∈ (⟨0, 0, 0⟩ : Pt) :: [⟨2, 0, 0⟩], p ≠ q) →
      ∃ q ∈ (normalizePoints (⟨0, 0, 0⟩ :: [⟨2, 0, 0⟩])).1,
        q.x = 1 ∨ q.x = -1 ∨ q.y = 1 ∨ q.y = -1 ∨ q.z = 1 ∨ q.z = -1) :=
  normalization_bounds ⟨0, 0, 0⟩ [⟨2, 0, 0⟩]

theorem setNormalsFrom_length (f : ℕ → Option Vec3R) :
    ∀ (j : ℕ) (vs : List VertexR), (setNormalsFrom f j vs).length = vs.length
  | _, [] => rfl
  | j, v :: rest => by
    simp only [setNormalsFrom, List.length_cons, setNormalsFrom_length f (j + 1) rest]

theorem setNormalsFrom_map_position (f : ℕ → Option Vec3R) :
    ∀ (j : ℕ) (vs : List VertexR),
      (setNormalsFrom f j vs).map VertexR.position = vs.map VertexR.position
  | _, [] => rfl
  | j, v :: rest => by
    simp only [setNormalsFrom, List.map_cons, setNormalsFrom_map_position f (j + 1) rest]

theorem setNormalsFrom_getD (f : ℕ → Option Vec3R) :
    ∀ (j k : ℕ) (vs : List VertexR), k < vs.length →
      (setNormalsFrom f j vs).getD k ⟨⟨0, 0, 0⟩, none⟩ =
        ⟨(vs.getD k ⟨⟨0, 0, 0⟩, none⟩).position, f (j + k)⟩
  | j, 0, v :: rest, _ => by
    simp [setNormalsFrom]
  | j, k + 1, v :: rest, h => by
    have ih := setNormalsFrom_getD f (j + 1) k rest (by simpa using Nat.lt_of_succ_lt_succ h)
    simp only [setNormalsFrom, List.getD_cons_succ, ih]
    have harith : j + 1 + k = j + (k + 1) := by omega
    rw [harith]

theorem normalAt_calculateNormals (vs : List VertexR) (idx : List ℕ) (j : ℕ)
    (hj : j < vs.length) :
    normalAt (calculateNormals vs idx) j =
      normalizeOpt (accumNormals vs (chunk3 idx) j) := by
  unfold calculateNormals normalAt
  rw [setNormalsFrom_getD _ 0 j vs hj]
  simp

/-- Claim C10: the Normal Estimator mutates only the normal field of each
vertex: the positions (and hence the order) and the length of the vertex
sequence are unchanged by `calculateNormals`; the index sequence is a read-only
input of the embedded function. -/
theorem calculateNormals_frame (vs : List VertexR) (idx : List ℕ) :
    (calculateNormals vs idx).map VertexR.position = vs.map VertexR.position ∧
    (calculateNormals vs idx).length = vs.length := by
  unfold calculateNormals
  exact ⟨setNormalsFrom_map_position _ 0 vs, setNormalsFrom_length _ 0 vs⟩

theorem glmNormalize_zero : glmNormalize ⟨0, 0, 0⟩ = none := by
  simp [glmNormalize, vdot]

/-- Claim C4 (code bug): a vertex whose accumulated normal is the zero vector
(here: a vertex referenced by no triangle) does not keep a zero normal — the
unguarded `glm::normalize` divides by a zero length and produces NaN
components (`none` in this model) instead of the zero vector the spec
requires. -/
theorem zero_accumulator_normal_becomes_nan :
    calculateNormals [⟨⟨0, 0, 0⟩, some ⟨0, 0, 0⟩⟩] [] = [⟨⟨0, 0, 0⟩, none⟩] := by
  unfold calculateNormals
  simp [setNormalsFrom, accumNormals, chunk3, normalizeOpt, glmNormalize, vdot]

theorem vdot_self_eq_zero (w : Vec3R) :
    vdot w w = 0 ↔ (w.x = 0 ∧ w.y = 0 ∧ w.z = 0) := by
  unfold vdot
  constructor
  · intro h
    refine ⟨?_, ?_, ?_⟩ <;>
      nlinarith [mul_self_nonneg w.x, mul_self_nonneg w.y, mul_self_nonneg w.z]
  · rintro ⟨h1, h2, h3⟩
    rw [h1, h2, h3]
    ring

theorem vdot_smul (c : ℝ) (v : Vec3R) :
    vdot (vsmul c v) (vsmul c v) = c ^ 2 * vdot v v := by
  simp [vdot, vsmul]
  ring

theorem vlen_glmNormalize (w : Vec3R) (hw : vdot w w ≠ 0) :
    ∃ u, glmNormalize w = some u ∧ vlen u = 1 := by
  have hnn : 0 ≤ vdot w w := by
    unfold vdot
    nlinarith [mul_self_nonneg w.x, mul_self_nonneg w.y, mul_self_nonneg w.z]
  have hpos : 0 < vdot w w := lt_of_le_of_ne hnn (Ne.symm hw)
  refine ⟨vsmul (Real.sqrt (vdot w w))⁻¹ w, ?_, ?_⟩
  · rw [glmNormalize, if_neg hw]
  · unfold vlen
    rw [vdot_smul, inv_pow, Real.sq_sqrt hpos.le, inv_mul_cancel₀ (ne_of_gt hpos)]
    exact Real.sqrt_one

theorem glmNormalize_zpos (c : ℝ) (hc : 0 < c) :
    glmNormalize ⟨0, 0, c⟩ = some ⟨0, 0, 1⟩ := by
  have hd : vdot ⟨0, 0, c⟩ ⟨0, 0, c⟩ = c ^ 2 := by
    simp [vdot]
    ring
  unfold glmNormalize
  rw [hd, if_neg (pow_ne_zero 2 (ne_of_gt hc))]
  rw [Real.sqrt_sq hc.le]
  simp [vsmul]
  exact inv_mul_cancel₀ (ne_of_gt hc)

theorem glmNormalize_zneg (c : ℝ) (hc : c < 0) :
    glmNormalize ⟨0, 0, c⟩ = some ⟨0, 0, -1⟩ := by
  have hd : vdot ⟨0, 0, c⟩ ⟨0, 0, c⟩ = c ^ 2 := by
    simp [vdot]
    ring
  have hcne : c ≠ 0 := ne_of_lt hc
  unfold glmNormalize
  rw [hd, if_neg (pow_ne_zero 2 hcne)]
  rw [Real.sqrt_sq_eq_abs, abs_of_neg hc]
  simp [vsmul]
  field_simp

theorem samplePts_vertices :
    (triangulateSimplified samplePts).vertices =
      [⟨⟨0, 0, 0⟩, ⟨0, 0, 0⟩⟩, ⟨⟨1/10, 0, 0⟩, ⟨0, 0, 0⟩⟩,
       ⟨⟨1/20, 1/20, 0⟩, ⟨0, 0, 0⟩⟩, ⟨⟨3/20, 1/20, 0⟩, ⟨0, 0, 0⟩⟩] := by
  have hn : ¬ samplePts.length < 3 := by norm_num [samplePts]
  simp only [triangulateSimplified, if_neg hn]
  simp [samplePts]

theorem samplePts_keep1 :
    keepIdx (samplePts.map (fun p => ⟨p, ⟨0, 0, 0⟩⟩)) (0, 1, 2) = true := by
  simp only [keepIdx, keepTriangle, posAt, samplePts, List.map_cons, List.map_nil,
    List.getD_cons_zero, List.getD_cons_succ, dist2, maxEdgeLength,
    Bool.and_eq_true, decide_eq_true_eq]
  norm_num

theorem samplePts_keep2 :
    keepIdx (samplePts.map (fun p => ⟨p, ⟨0, 0, 0⟩⟩)) (1, 2, 3) = true := by
  simp only [keepIdx, keepTriangle, posAt, samplePts, List.map_cons, List.map_nil,
    List.getD_cons_zero, List.getD_cons_succ, dist2, maxEdgeLength,
    Bool.and_eq_true, decide_eq_true_eq]
  norm_num

theorem samplePts_indices :
    (triangulateSimplified samplePts).indices = [0, 1, 2, 1, 2, 3] := by
  have hn : ¬ samplePts.length < 3 := by norm_num [samplePts]
  simp only [triangulateSimplified, if_neg hn]
  rw [filterTriangles_fst]
  have hc : emitCandidates (sortPoints samplePts) = [0, 1, 2, 1, 2, 3] := by
    unfold emitCandidates
    rw [sortPoints_length]
    rfl
  rw [hc]
  show flat3 (List.filter (keepIdx (samplePts.map (fun p => ⟨p, ⟨0, 0, 0⟩⟩)))
    [(0, 1, 2), (1, 2, 3)]) = [0, 1, 2, 1, 2, 3]
  rw [List.filter_cons, List.filter_cons]
  simp [samplePts_keep1, samplePts_keep2, flat3]

theorem samplePts_pipeline_vertices :
    (triangulateSimplified samplePts).vertices.map castVertex =
      [⟨⟨0, 0, 0⟩, some ⟨0, 0, 0⟩⟩, ⟨⟨1/10, 0, 0⟩, some ⟨0, 0, 0⟩⟩,
       ⟨⟨1/20, 1/20, 0⟩, some ⟨0, 0, 0⟩⟩, ⟨⟨3/20, 1/20, 0⟩, some ⟨0, 0, 0⟩⟩] := by
  rw [samplePts_vertices]
  simp [castVertex]

theorem sample_face1 :
    faceNormal ⟨0, 0, 0⟩ ⟨1/10, 0, 0⟩ ⟨1/20, 1/20, 0⟩ = some ⟨0, 0, 1⟩ := by
  have h : vcross (vsub ⟨1/10, 0, 0⟩ ⟨0, 0, 0⟩) (vsub ⟨1/20, 1/20, 0⟩ ⟨0, 0, 0⟩) =
      (⟨0, 0, 1/200⟩ : Vec3R) := by
    simp [vsub, vcross]
    norm_num
  unfold faceNormal
  rw [h]
  exact glmNormalize_zpos (1/200) (by norm_num)

theorem sample_face2 :
    faceNormal ⟨1/10, 0, 0⟩ ⟨1/20, 1/20, 0⟩ ⟨3/20, 1/20, 0⟩ = some ⟨0, 0, -1⟩ := by
  have h : vcross (vsub ⟨1/20, 1/20, 0⟩ ⟨1/10, 0, 0⟩) (vsub ⟨3/20, 1/20, 0⟩ ⟨1/10, 0, 0⟩) =
      (⟨0, 0, -1/200⟩ : Vec3R) := by
    simp [vsub, vcross]
    norm_num
  unfold faceNormal
  rw [h]
  exact glmNormalize_zneg (-1/200) (by norm_num)

theorem samplePts_accum_vertex1 :
    accumNormals ((triangulateSimplified samplePts).vertices.map castVertex)
      (chunk3 (triangulateSimplified samplePts).indices) 1 = some ⟨0, 0, 0⟩ := by
  rw [samplePts_pipeline_vertices, samplePts_indices]
  show accumNormals _ [(0, 1, 2), (1, 2, 3)] 1 = some ⟨0, 0, 0⟩
  simp only [accumNormals, List.foldl_cons, List.foldl_nil]
  simp only [addFace, rposAt, List.getD_cons_zero, List.getD_cons_succ]
  rw [sample_face1, sample_face2]
  simp [bump, addOpt, vadd]

/-- Claim C5, counterexample: on the four-point sample both strip triangles
survive the filter and vertex 1 is referenced, but the two face normals are
exactly opposite, the accumulator cancels to the zero vector, and the final
`glm::normalize` yields NaN (`none`) — so vertex 1's normal does not have
magnitude 1 within 1e-4, refuting the claim as stated. -/
theorem unit_normal_counterexample :
    (1 : ℕ) ∈ (triangulateSimplified samplePts).indices ∧
    ¬ ∃ u : Vec3R, normalAt (pipelineNormals samplePts) 1 = some u ∧
        |vlen u - 1| ≤ 1 / 10000 := by
  constructor
  · rw [samplePts_indices]
    simp
  · have hj : (1 : ℕ) < ((triangulateSimplified samplePts).vertices.map castVertex).length := by
      rw [samplePts_pipeline_vertices]
      norm_num
    have hnone : normalAt (pipelineNormals samplePts) 1 = none := by
      unfold pipelineNormals
      rw [normalAt_calculateNormals _ _ 1 (by rw [List.length_map] at hj ⊢; exact hj),
        samplePts_accum_vertex1]
      simp [normalizeOpt, glmNormalize_zero]
    rw [hnone]
    rintro ⟨u, hu, _⟩
    exact Option.noConfusion hu

/-- Claim C5 (amended): after the Normal Estimator runs on the Triangulator's
output, every vertex referenced by at least one surviving triangle whose
accumulated face-normal sum is a well-defined (non-NaN) nonzero vector has a
normal of magnitude exactly 1, in particular within tolerance 1e-4.  (A
referenced vertex whose face normals cancel to the zero vector instead gets NaN
components, as the counterexample shows.) -/
theorem referenced_vertex_unit_normal (ps : List Pt) (j : ℕ) (w : Vec3R)
    (hmem : j ∈ (triangulateSimplified ps).indices)
    (hacc : accumNormals ((triangulateSimplified ps).vertices.map castVertex)
      (chunk3 (triangulateSimplified ps).indices) j = some w)
    (hw : ¬ (w.x = 0 ∧ w.y = 0 ∧ w.z = 0)) :
    ∃ u, normalAt (pipelineNormals ps) j = some u ∧ |vlen u - 1| ≤ 1 / 10000 := by
  have hj : j < ((triangulateSimplified ps).vertices.map castVertex).length := by
    rw [List.length_map]
    exact triangulate_indices_lt ps j hmem
  have hwne : vdot w w ≠ 0 := fun h => hw ((vdot_self_eq_zero w).mp h)
  obtain ⟨u, hu, hlen⟩ := vlen_glmNormalize w hwne
  refine ⟨u, ?_, ?_⟩
  · unfold pipelineNormals
    rw [normalAt_calculateNormals _ _ j hj, hacc]
    simpa [normalizeOpt] using hu
  · rw [hlen]
    norm_num

/-- Concrete three-point sample whose single triangle survives the filter,
used by the witness of the amended claim C5. -/
def smallTri : List Pt := [⟨0, 0, 0⟩, ⟨1/10, 0, 0⟩, ⟨1/20, 1/20, 0⟩]

theorem smallTri_vertices :
    (triangulateSimplified smallTri).vertices =
      [⟨⟨0, 0, 0⟩, ⟨0, 0, 0⟩⟩, ⟨⟨1/10, 0, 0⟩, ⟨0, 0, 0⟩⟩, ⟨⟨1/20, 1/20, 0⟩, ⟨0, 0, 0⟩⟩] := by
  have hn : ¬ smallTri.length < 3 := by norm_num [smallTri]
  simp only [triangulateSimplified, if_neg hn]
  simp [smallTri]

theorem smallTri_keep1 :
    keepIdx (smallTri.map (fun p => ⟨p, ⟨0, 0, 0⟩⟩)) (0, 1, 2) = true := by
  simp only [keepIdx, keepTriangle, posAt, smallTri, List.map_cons, List.map_nil,
    List.getD_cons_zero, List.getD_cons_succ, dist2, maxEdgeLength,
    Bool.and_eq_true, decide_eq_true_eq]
  norm_num

theorem smallTri_indices :
    (triangulateSimplified smallTri).indices = [0, 1, 2] := by
  have hn : ¬ smallTri.length < 3 := by norm_num [smallTri]
  simp only [triangulateSimplified, if_neg hn]
  rw [filterTriangles_fst]
  have hc : emitCandidates (sortPoints smallTri) = [0, 1, 2] := by
    unfold emitCandidates
    rw [sortPoints_length]
    rfl
  rw [hc]
  show flat3 (List.filter (keepIdx (smallTri.map (fun p => ⟨p, ⟨0, 0, 0⟩⟩)))
    [(0, 1, 2)]) = [0, 1, 2]
  rw [List.filter_cons]
  simp [smallTri_keep1, flat3]

theorem smallTri_pipeline_vertices :
    (triangulateSimplified smallTri).vertices.map castVertex =
      [⟨⟨0, 0, 0⟩, some ⟨0, 0, 0⟩⟩, ⟨⟨1/10, 0, 0⟩, some ⟨0, 0, 0⟩⟩,
       ⟨⟨1/20, 1/20, 0⟩, some ⟨0, 0, 0⟩⟩] := by
  rw [smallTri_vertices]
  simp [castVertex]

theorem smallTri_accum_vertex0 :
    accumNormals ((triangulateSimplified smallTri).vertices.map castVertex)
      (chunk3 (triangulateSimplified smallTri).indices) 0 = some ⟨0, 0, 1⟩ := by
  rw [smallTri_pipeline_vertices, smallTri_indices]
  show accumNormals _ [(0, 1, 2)] 0 = some ⟨0, 0, 1⟩
  simp only [accumNormals, List.foldl_cons, List.foldl_nil]
  simp only [addFace, rposAt, List.getD_cons_zero, List.getD_cons_succ]
  rw [sample_face1]
  simp [bump, addOpt, vadd]

/-- Witness for the amended claim C5 at the three-point sample: vertex 0 is
referenced, its accumulated normal is the nonzero vector `(0, 0, 1)`, and the
final normal is a unit vector. -/
theorem referenced_vertex_unit_normal_witness :
    (0 : ℕ) ∈ (triangulateSimplified smallTri).indices ∧
    accumNormals ((triangulateSimplified smallTri).vertices.map castVertex)
      (chunk3 (triangulateSimplified smallTri).indices) 0 = some ⟨0, 0, 1⟩ ∧
    ¬ ((⟨0, 0, 1⟩ : Vec3R).x = 0 ∧ (⟨0, 0, 1⟩ : Vec3R).y = 0 ∧ (⟨0, 0, 1⟩ : Vec3R).z = 0) ∧
    ∃ u, normalAt (pipelineNormals smallTri) 0 = some u ∧ |vlen u - 1| ≤ 1 / 10000 :=
  ⟨by rw [smallTri_indices]; simp,
   smallTri_accum_vertex0,
   by norm_num,
   referenced_vertex_unit_normal smallTri 0 ⟨0, 0, 1⟩
     (by rw [smallTri_indices]; simp) smallTri_accum_vertex0 (by norm_num)⟩
